import Mathlib

/-!
Verification development for the graph-to-simplicial-complex lifting module
(`toponetx/transform/graph_to_simplicial_complex.py`).

The module lifts a finite simple undirected graph to a simplicial complex by
four rules: clique complex, neighbor complex, independent-set complex and
power complex.  Nodes are natural numbers; attribute mappings are association
lists from string keys to integer values.  Fallible operations (the attribute
copy phase can hit a missing simplex; the power builder validates its power
argument) return `Except Err`.
-/

/-- Attribute mapping: an association list of key/value pairs, mirroring the
per-node / per-edge / per-graph attribute dictionaries of the graph and the
per-simplex attribute dictionaries of the complex. -/
abbrev Attr := List (String × Int)

/-- Merge the mapping `new` onto `old`, key by key: an existing key is
overwritten in place, a fresh key is appended (dictionary `update`). -/
def updateAttr (old new : Attr) : Attr :=
  new.foldl
    (fun acc kv =>
      if acc.any (fun p => p.1 = kv.1) then
        acc.map (fun p => if p.1 = kv.1 then kv else p)
      else
        acc ++ [kv])
    old

/-- Errors surfaced by the builders: `valueError` for the power validation
(`ValueError` in the source), `keyError` for addressing a simplex absent from
the complex (`KeyError`). -/
inductive Err where
  | valueError : Err
  | keyError : Err
deriving DecidableEq, Repr

/-- A finite simple undirected graph.  Edges are stored canonically as pairs
`(u, v)` with `u < v`, endpoints inside the node set; adjacency is derived
symmetrically.  Node, edge and graph attribute mappings ride along. -/
structure Graph where
  nodes : Finset ℕ
  edges : Finset (ℕ × ℕ)
  edges_lt : ∀ e ∈ edges, e.1 < e.2
  edges_mem : ∀ e ∈ edges, e.1 ∈ nodes ∧ e.2 ∈ nodes
  nodeAttr : ℕ → Attr
  edgeAttr : ℕ × ℕ → Attr
  graphAttr : Attr

/-- Adjacency test of the graph (symmetric closure of the canonical edge
set). -/
def adjB (G : Graph) (u v : ℕ) : Bool :=
  decide ((u, v) ∈ G.edges) || decide ((v, u) ∈ G.edges)

/-- A clique: a subset of the node set whose members are pairwise adjacent. -/
def isClique (G : Graph) (s : Finset ℕ) : Prop :=
  s ⊆ G.nodes ∧ ∀ u ∈ s, ∀ v ∈ s, u ≠ v → adjB G u v = true

instance (G : Graph) (s : Finset ℕ) : Decidable (isClique G s) :=
  inferInstanceAs (Decidable (s ⊆ G.nodes ∧ ∀ u ∈ s, ∀ v ∈ s, u ≠ v → adjB G u v = true))

/-- The neighbors of a node. -/
def neighbors (G : Graph) (v : ℕ) : Finset ℕ :=
  G.nodes.filter (fun u => adjB G v u = true)

/-- Degree of a node. -/
def degree (G : Graph) (v : ℕ) : ℕ :=
  (neighbors G v).card

/-- Maximum node degree of the graph. -/
def maxDegree (G : Graph) : ℕ :=
  G.nodes.sup (degree G)

/-- All nonempty cliques of the graph, as a finite set. -/
def cliqueSet (G : Graph) : Finset (Finset ℕ) :=
  G.nodes.powerset.filter (fun s => s.Nonempty ∧ isClique G s)

/-- All nonempty cliques of size at most `d`, as a finite set. -/
def boundedCliqueSet (G : Graph) (d : ℕ) : Finset (Finset ℕ) :=
  G.nodes.powerset.filter (fun s => s.Nonempty ∧ isClique G s ∧ s.card ≤ d)

/-- Size of the largest clique of the graph (`0` on the empty graph). -/
def maxCliqueSize (G : Graph) : ℕ :=
  (G.nodes.powerset.filter (fun s => isClique G s)).sup Finset.card

/-- Modelled from the spec: the `SimplicialComplex` container
(`toponetx.classes.simplicial_complex`, consumed by the module but not part of
the sources under verification).  Per §3/§6 it stores a set of simplices
closed under nonempty-subset formation, a per-simplex attribute mapping and a
complex-level attribute mapping, and exposes a `dim` property. -/
structure SimplicialComplex where
  simplices : Finset (Finset ℕ)
  attrs : List (Finset ℕ × Attr)
  complexAttr : Attr
deriving DecidableEq

/-- Downward closure of a batch of simplices: all nonempty subsets of the
listed node sets (deduplicated). -/
def downClosure (L : List (Finset ℕ)) : Finset (Finset ℕ) :=
  L.toFinset.biUnion (fun s => s.powerset.filter (fun t => t.Nonempty))

/-- Modelled from the spec: batch construction of a complex from a collection
of simplices performs full downward closure and deduplication (§6); attribute
mappings start out empty. -/
def SimplicialComplex.ofSimplices (L : List (Finset ℕ)) : SimplicialComplex :=
  { simplices := downClosure L, attrs := [], complexAttr := [] }

/-- The attribute mapping currently stored for a simplex (empty when none has
been stored). -/
def SimplicialComplex.getAttr (sc : SimplicialComplex) (s : Finset ℕ) : Attr :=
  ((sc.attrs.find? (fun p => decide (p.1 = s))).map Prod.snd).getD []

/-- Store value `v` for simplex `s` in an attribute association list,
replacing an existing entry or appending a fresh one. -/
def setEntry (l : List (Finset ℕ × Attr)) (s : Finset ℕ) (v : Attr) :
    List (Finset ℕ × Attr) :=
  if l.any (fun p => decide (p.1 = s)) then
    l.map (fun p => if p.1 = s then (s, v) else p)
  else
    l ++ [(s, v)]

/-- Merge the mapping `a` onto the attribute mapping stored for simplex `s`
(the effect of `SC[s].update(a)` on an existing simplex). -/
def SimplicialComplex.updateAt (sc : SimplicialComplex) (s : Finset ℕ) (a : Attr) :
    SimplicialComplex :=
  { sc with attrs := setEntry sc.attrs s (updateAttr (sc.getAttr s) a) }

/-- Dimension of the complex: maximum simplex size minus one (so `-1` on an
empty complex). -/
def SimplicialComplex.dim (sc : SimplicialComplex) : ℤ :=
  ((sc.simplices.sup Finset.card : ℕ) : ℤ) - 1

/-- Modelled from the spec: sequentially perform `SC[s].update(a)` for each
listed target.  Per §6 per-simplex attribute update is defined on an existing
simplex, addressed by its exact node subset; only the membership query — not
attribute access — is guaranteed non-erroring for an absent subset, so
addressing a node subset that is not a simplex of the complex raises
`KeyError`, aborting the copy phase. -/
def copyAttrs : List (Finset ℕ × Attr) → SimplicialComplex → Except Err SimplicialComplex
  | [], sc => .ok sc
  | (s, a) :: rest, sc =>
    if s ∈ sc.simplices then copyAttrs rest (sc.updateAt s a) else .error .keyError

/-- The nodes of the graph as a list, in ascending order (the iteration order
of the node set). -/
def nodeList (G : Graph) : List ℕ :=
  (List.range (G.nodes.sup id + 1)).filter (fun v => decide (v ∈ G.nodes))

/-- All subsets of the node set, as a list of finite sets. -/
def subsetList (G : Graph) : List (Finset ℕ) :=
  (nodeList G).sublists.map List.toFinset

/-- The edges of the graph as a list (the iteration order of the edge set). -/
def edgeList (G : Graph) : List (ℕ × ℕ) :=
  (nodeList G).flatMap
    (fun u => (nodeList G).filterMap
      (fun v => if (u, v) ∈ G.edges then some (u, v) else none))

/-- All cliques of size exactly `k`, as a list (the order inside one size
class is immaterial). -/
def cliquesOfSize (G : Graph) (k : ℕ) : List (Finset ℕ) :=
  (subsetList G).filter (fun s => decide (s.card = k ∧ isClique G s))

/-- Modelled from the spec: the external clique-enumeration primitive
(`nx.enumerate_all_cliques`, §6) yields every nonempty clique of the graph,
in non-decreasing order of clique size. -/
def enumerateAllCliques (G : Graph) : List (Finset ℕ) :=
  (List.range G.nodes.card).flatMap (fun i => cliquesOfSize G (i + 1))

/-- The clique stream after the optional size bound: with `max_dim = d` the
stream is cut by `takewhile(len(clique) <= d)`, without a bound it is left
whole. -/
def boundedCliques (G : Graph) (max_dim : Option ℕ) : List (Finset ℕ) :=
  match max_dim with
  | none => enumerateAllCliques G
  | some d => (enumerateAllCliques G).takeWhile (fun c => decide (c.card ≤ d))

/-- The `SC[[node]].update(G.nodes[node])` targets of the attribute copy
phase, one per node. -/
def nodeTargets (G : Graph) : List (Finset ℕ × Attr) :=
  (nodeList G).map (fun v => ({v}, G.nodeAttr v))

/-- The `SC[edge].update(G.edges[edge])` targets of the attribute copy phase,
one per edge. -/
def edgeTargets (G : Graph) : List (Finset ℕ × Attr) :=
  (edgeList G).map (fun e => ({e.1, e.2}, G.edgeAttr e))

/-- `graph_to_clique_complex`: enumerate all cliques (cut by `takewhile` at
size `max_dim` when a bound is given), build the complex from them, then copy
node, edge and graph attributes onto the matching simplices. -/
def graph_to_clique_complex (G : Graph) (max_dim : Option ℕ) :
    Except Err SimplicialComplex :=
  (copyAttrs (nodeTargets G ++ edgeTargets G)
      (SimplicialComplex.ofSimplices (boundedCliques G max_dim))).map
    (fun sc => { sc with complexAttr := updateAttr sc.complexAttr G.graphAttr })

/-- The one simplex contributed per node by the neighbor rule:
`list(G.neighbors(node)) + [node]`. -/
def neighborSimplex (G : Graph) (v : ℕ) : Finset ℕ :=
  insert v (neighbors G v)

/-- The batch of simplices of the neighbor complex, one per node. -/
def neighborSimplices (G : Graph) : List (Finset ℕ) :=
  (nodeList G).map (neighborSimplex G)

/-- `graph_to_neighbor_complex`: for each node collect the simplex made of the
node and its neighbors, and build the complex from that batch.  No attribute
copy is performed. -/
def graph_to_neighbor_complex (G : Graph) : SimplicialComplex :=
  SimplicialComplex.ofSimplices (neighborSimplices G)

/-- Modelled from the spec: the external complement primitive
(`nx.complement`, §6 and glossary) returns a graph on the same node set whose
edges are exactly the non-adjacent distinct pairs; per its documented
contract, graph, node and edge data are not propagated to the new graph, so
every attribute mapping of the result is empty. -/
def complement (G : Graph) : Graph where
  nodes := G.nodes
  edges := (G.nodes ×ˢ G.nodes).filter (fun p => p.1 < p.2 ∧ adjB G p.1 p.2 = false)
  edges_lt := fun _e he => (Finset.mem_filter.mp he).2.1
  edges_mem := fun _e he => Finset.mem_product.mp (Finset.mem_filter.mp he).1
  nodeAttr := fun _ => []
  edgeAttr := fun _ => []
  graphAttr := []

/-- `graph_to_independent_set_complex`: the clique complex of the complement
graph, the bound passed through unchanged. -/
def graph_to_independent_set_complex (G : Graph) (max_dim : Option ℕ) :
    Except Err SimplicialComplex :=
  graph_to_clique_complex (complement G) max_dim

/-- Walk test: `distLE G u v k` holds when some walk of length at most `k`
joins `u` to `v`, i.e. when the shortest-path distance is at most `k`. -/
def distLE (G : Graph) (u v : ℕ) : ℕ → Bool
  | 0 => decide (u = v)
  | k + 1 =>
    decide (u = v) || (nodeList G).any (fun w => adjB G u w && distLE G w v k)

/-- Least witness search: `distUpTo G u v k` is `some d` for the least
`d ≤ k` with `distLE G u v d`, and `none` when there is none. -/
def distUpTo (G : Graph) (u v : ℕ) : ℕ → Option ℕ
  | 0 => if distLE G u v 0 then some 0 else none
  | k + 1 =>
    match distUpTo G u v k with
    | some d => some d
    | none => if distLE G u v (k + 1) then some (k + 1) else none

/-- Shortest-path distance, searched up to the number of nodes (an impossible
sentinel value one past the search bound is returned for unreachable
pairs). -/
def distN (G : Graph) (u v : ℕ) : ℕ :=
  (distUpTo G u v G.nodes.card).getD (G.nodes.card + 1)

/-- Connectivity: every pair of nodes is joined by a walk (of length at most
the number of nodes). -/
def Connected (G : Graph) : Prop :=
  ∀ u ∈ G.nodes, ∀ v ∈ G.nodes, distLE G u v G.nodes.card = true

instance (G : Graph) : Decidable (Connected G) :=
  inferInstanceAs (Decidable (∀ u ∈ G.nodes, ∀ v ∈ G.nodes, distLE G u v G.nodes.card = true))

/-- Diameter: the largest pairwise distance (on a connected graph). -/
def diameter (G : Graph) : ℕ :=
  (G.nodes ×ˢ G.nodes).sup (fun p => distN G p.1 p.2)

/-- Modelled from the spec: the external `k`-th-power primitive (`nx.power`,
§6 and glossary) connects every pair of distinct nodes within shortest-path
distance `k`; node data is not carried over. -/
def graphPower (G : Graph) (k : ℕ) : Graph where
  nodes := G.nodes
  edges := (G.nodes ×ˢ G.nodes).filter (fun p => p.1 < p.2 ∧ distLE G p.1 p.2 k = true)
  edges_lt := fun _e he => (Finset.mem_filter.mp he).2.1
  edges_mem := fun _e he => Finset.mem_product.mp (Finset.mem_filter.mp he).1
  nodeAttr := fun _ => []
  edgeAttr := fun _ => []
  graphAttr := []

/-- `graph_to_power_complex`: validate `pow ≥ 1` (raising `ValueError`
otherwise), then take the clique complex of the `pow`-th graph power, the
bound passed through unchanged. -/
def graph_to_power_complex (G : Graph) (pow : ℤ) (max_dim : Option ℕ) :
    Except Err SimplicialComplex :=
  if pow < 1 then .error .valueError
  else graph_to_clique_complex (graphPower G pow.toNat) max_dim

/-- Deprecation warning emitted by `graph_2_neighbor_complex`. -/
def deprMsgNeighbor : String :=
  "`graph_2_neighbor_complex` is deprecated and will be removed in a future version, use `graph_to_neighbor_complex` instead."

/-- Deprecation warning emitted by `graph_2_clique_complex`. -/
def deprMsgClique : String :=
  "`graph_2_clique_complex` is deprecated and will be removed in a future version, use `graph_to_clique_complex` instead."

/-- Deprecated shim: emit the deprecation warning, then forward to
`graph_to_neighbor_complex`.  The warnings emitted during the call are
returned alongside the result. -/
def graph_2_neighbor_complex (G : Graph) : List String × SimplicialComplex :=
  ([deprMsgNeighbor], graph_to_neighbor_complex G)

/-- Deprecated shim: emit the deprecation warning, then forward to
`graph_to_clique_complex`.  The warnings emitted during the call are returned
alongside the result. -/
def graph_2_clique_complex (G : Graph) (max_dim : Option ℕ) :
    List String × Except Err SimplicialComplex :=
  ([deprMsgClique], graph_to_clique_complex G max_dim)

/-- The value carried by a successful builder result (a default empty complex
on an error, used only to phrase concrete witnesses). -/
def okValue (e : Except Err SimplicialComplex) : SimplicialComplex :=
  match e with
  | .ok sc => sc
  | .error _ => { simplices := ∅, attrs := [], complexAttr := [] }

instance : DecidableEq (Except Err SimplicialComplex)
  | .ok x, .ok y =>
    if h : x = y then .isTrue (by rw [h]) else .isFalse (fun hc => h (Except.ok.inj hc))
  | .error x, .error y =>
    if h : x = y then .isTrue (by rw [h]) else .isFalse (fun hc => h (Except.error.inj hc))
  | .ok _, .error _ => .isFalse (fun hc => Except.noConfusion hc)
  | .error _, .ok _ => .isFalse (fun hc => Except.noConfusion hc)

/-- Triangle graph on `{0, 1, 2}` with all three edges. -/
def Gtri : Graph where
  nodes := {0, 1, 2}
  edges := {(0, 1), (0, 2), (1, 2)}
  edges_lt := by decide
  edges_mem := by decide
  nodeAttr := fun _ => []
  edgeAttr := fun _ => []
  graphAttr := []

/-- Square graph: the 4-cycle `0-1-2-3-0`. -/
def Gsq : Graph where
  nodes := {0, 1, 2, 3}
  edges := {(0, 1), (1, 2), (2, 3), (0, 3)}
  edges_lt := by decide
  edges_mem := by decide
  nodeAttr := fun _ => []
  edgeAttr := fun _ => []
  graphAttr := []

/-- Single-edge graph `0-1`. -/
def Gedge : Graph where
  nodes := {0, 1}
  edges := {(0, 1)}
  edges_lt := by decide
  edges_mem := by decide
  nodeAttr := fun _ => []
  edgeAttr := fun _ => []
  graphAttr := []

/-- Single-edge graph `0-1` whose node `0` carries the attribute
`label = 5`. -/
def Gattr : Graph where
  nodes := {0, 1}
  edges := {(0, 1)}
  edges_lt := by decide
  edges_mem := by decide
  nodeAttr := fun n => if n = 0 then [("label", (5 : Int))] else []
  edgeAttr := fun _ => []
  graphAttr := []

/-- Graph with an edge `0-1` and an isolated node `5`. -/
def Giso : Graph where
  nodes := {0, 1, 5}
  edges := {(0, 1)}
  edges_lt := by decide
  edges_mem := by decide
  nodeAttr := fun _ => []
  edgeAttr := fun _ => []
  graphAttr := []

/-! ### List utilities -/

/-- On a list along which the predicate can only switch from true to false,
`takeWhile` and `filter` agree. -/
theorem takeWhile_eq_filter_of {α : Type} {p : α → Bool} :
    ∀ {l : List α}, l.Pairwise (fun a b => p b = true → p a = true) →
      l.takeWhile p = l.filter p := by
  intro l h
  induction l with
  | nil => rfl
  | cons a t ih =>
    rcases List.pairwise_cons.mp h with ⟨h1, h2⟩
    by_cases hp : p a = true
    · rw [List.takeWhile_cons_of_pos hp, List.filter_cons_of_pos hp, ih h2]
    · rw [List.takeWhile_cons_of_neg hp, List.filter_cons_of_neg hp]
      refine (List.filter_eq_nil_iff.mpr ?_).symm
      intro b hb hpb
      exact hp (h1 b hb hpb)

/-- Filtering by a stronger predicate factors through a weaker one. -/
theorem filter_filter_of_imp {p q : ℕ → Bool} (h : ∀ a, p a = true → q a = true) :
    ∀ (l : List ℕ), (l.filter q).filter p = l.filter p := by
  intro l
  induction l with
  | nil => rfl
  | cons a t ih =>
    by_cases hq : q a = true
    · rw [List.filter_cons_of_pos hq]
      by_cases hp : p a = true
      · rw [List.filter_cons_of_pos hp, List.filter_cons_of_pos hp, ih]
      · rw [List.filter_cons_of_neg hp, List.filter_cons_of_neg hp, ih]
    · have hp : ¬ p a = true := fun hpa => hq (h a hpa)
      rw [List.filter_cons_of_neg hq, List.filter_cons_of_neg hp, ih]

/-- Concatenating size classes in increasing order yields a list whose
cardinalities are pairwise non-decreasing. -/
theorem pairwise_card_flatMap {f : ℕ → List (Finset ℕ)}
    (hf : ∀ i s, s ∈ f i → s.card = i + 1) :
    ∀ {L : List ℕ}, L.Pairwise (· ≤ ·) →
      (L.flatMap f).Pairwise (fun a b => a.card ≤ b.card) := by
  intro L hL
  induction L with
  | nil => simp
  | cons i t ih =>
    rcases List.pairwise_cons.mp hL with ⟨h1, h2⟩
    rw [List.flatMap_cons]
    refine List.pairwise_append.mpr ⟨?_, ih h2, ?_⟩
    · refine List.pairwise_iff_forall_sublist.mpr ?_
      intro a b hab
      have hmem := hab.subset
      rw [hf i a (hmem (List.mem_cons_self a [b])),
        hf i b (hmem (List.mem_cons_of_mem a (List.mem_cons_self b [])))]
    · intro a haf b hbf
      rcases List.mem_flatMap.mp hbf with ⟨j, hj, hbj⟩
      rw [hf i a haf, hf j b hbj]
      exact Nat.succ_le_succ (h1 j hj)

/-! ### Enumeration lemmas -/

/-- Membership in the node list is membership in the node set. -/
theorem mem_nodeList {G : Graph} {v : ℕ} : v ∈ nodeList G ↔ v ∈ G.nodes := by
  unfold nodeList
  rw [List.mem_filter, decide_eq_true_eq]
  constructor
  · exact fun h => h.2
  · intro h
    exact ⟨List.mem_range.mpr (Nat.lt_succ_of_le (Finset.le_sup (f := id) h)), h⟩

/-- The subset list enumerates exactly the subsets of the node set. -/
theorem mem_subsetList {G : Graph} {s : Finset ℕ} :
    s ∈ subsetList G ↔ s ⊆ G.nodes := by
  unfold subsetList
  rw [List.mem_map]
  constructor
  · rintro ⟨l, hl, rfl⟩
    intro x hx
    rw [← mem_nodeList]
    exact (List.mem_sublists.mp hl).subset (List.mem_toFinset.mp hx)
  · intro hs
    refine ⟨(List.range (G.nodes.sup id + 1)).filter (fun v => decide (v ∈ s)), ?_, ?_⟩
    · rw [List.mem_sublists]
      have heq : ((List.range (G.nodes.sup id + 1)).filter
            (fun v => decide (v ∈ G.nodes))).filter (fun v => decide (v ∈ s)) =
          (List.range (G.nodes.sup id + 1)).filter (fun v => decide (v ∈ s)) := by
        refine filter_filter_of_imp ?_ _
        intro a ha
        rw [decide_eq_true_eq] at ha ⊢
        exact hs ha
      rw [← heq]
      exact List.filter_sublist _
    · ext a
      rw [List.mem_toFinset, List.mem_filter, decide_eq_true_eq]
      constructor
      · exact fun h => h.2
      · intro ha
        exact ⟨List.mem_range.mpr
          (Nat.lt_succ_of_le (Finset.le_sup (f := id) (hs ha))), ha⟩

/-- The edge list enumerates exactly the edge set. -/
theorem mem_edgeList {G : Graph} {e : ℕ × ℕ} :
    e ∈ edgeList G ↔ e ∈ G.edges := by
  unfold edgeList
  rw [List.mem_flatMap]
  constructor
  · rintro ⟨u, _, he⟩
    rcases List.mem_filterMap.mp he with ⟨v, _, hv⟩
    by_cases huv : (u, v) ∈ G.edges
    · rw [if_pos huv] at hv
      cases hv
      exact huv
    · rw [if_neg huv] at hv
      cases hv
  · intro he
    rcases G.edges_mem e he with ⟨h1, h2⟩
    refine ⟨e.1, mem_nodeList.mpr h1, List.mem_filterMap.mpr ⟨e.2, mem_nodeList.mpr h2, ?_⟩⟩
    rw [if_pos (by rwa [Prod.mk.eta])]

/-- Size-`k` enumeration: exactly the cliques of size `k`. -/
theorem mem_cliquesOfSize {G : Graph} {s : Finset ℕ} {k : ℕ} :
    s ∈ cliquesOfSize G k ↔ s.card = k ∧ isClique G s := by
  unfold cliquesOfSize
  rw [List.mem_filter, decide_eq_true_eq]
  constructor
  · exact fun h => h.2
  · intro h
    exact ⟨mem_subsetList.mpr h.2.1, h⟩

/-- The clique enumeration yields exactly the nonempty cliques. -/
theorem mem_enumerateAllCliques {G : Graph} {s : Finset ℕ} :
    s ∈ enumerateAllCliques G ↔ s.Nonempty ∧ isClique G s := by
  unfold enumerateAllCliques
  rw [List.mem_flatMap]
  constructor
  · rintro ⟨i, _, hs⟩
    rcases mem_cliquesOfSize.mp hs with ⟨hcard, hcl⟩
    refine ⟨Finset.card_pos.mp ?_, hcl⟩
    rw [hcard]
    exact Nat.succ_pos i
  · rintro ⟨hne, hcl⟩
    have hpos : 0 < s.card := Finset.card_pos.mpr hne
    have hle : s.card ≤ G.nodes.card := Finset.card_le_card hcl.1
    refine ⟨s.card - 1, List.mem_range.mpr ?_, mem_cliquesOfSize.mpr ⟨?_, hcl⟩⟩
    · omega
    · omega

/-- The clique enumeration is in non-decreasing order of clique size. -/
theorem pairwise_card_enumerateAllCliques (G : Graph) :
    (enumerateAllCliques G).Pairwise (fun a b => a.card ≤ b.card) := by
  refine pairwise_card_flatMap ?_ ?_
  · intro i s hs
    exact (mem_cliquesOfSize.mp hs).1
  · exact (List.pairwise_lt_range _).imp le_of_lt

/-- With a bound `d` the clique stream is exactly the nonempty cliques of
size at most `d` (the `takewhile` cut equals a full filter because the
enumeration is size-sorted). -/
theorem mem_boundedCliques_some {G : Graph} {d : ℕ} {s : Finset ℕ} :
    s ∈ boundedCliques G (some d) ↔ s.Nonempty ∧ isClique G s ∧ s.card ≤ d := by
  show s ∈ (enumerateAllCliques G).takeWhile (fun c => decide (c.card ≤ d)) ↔ _
  rw [takeWhile_eq_filter_of
    (((pairwise_card_enumerateAllCliques G).imp
      (fun hab => by
        intro h
        rw [decide_eq_true_eq] at *
        omega)))]
  rw [List.mem_filter, mem_enumerateAllCliques, decide_eq_true_eq]
  tauto

/-! ### Complex construction lemmas -/

/-- Membership in the downward closure of a batch. -/
theorem mem_downClosure {L : List (Finset ℕ)} {t : Finset ℕ} :
    t ∈ downClosure L ↔ t.Nonempty ∧ ∃ s ∈ L, t ⊆ s := by
  unfold downClosure
  rw [Finset.mem_biUnion]
  constructor
  · rintro ⟨s, hs, ht⟩
    rcases Finset.mem_filter.mp ht with ⟨hsub, hne⟩
    exact ⟨hne, s, List.mem_toFinset.mp hs, Finset.mem_powerset.mp hsub⟩
  · rintro ⟨hne, s, hs, hsub⟩
    exact ⟨s, List.mem_toFinset.mpr hs,
      Finset.mem_filter.mpr ⟨Finset.mem_powerset.mpr hsub, hne⟩⟩

/-- A subset of a clique is a clique. -/
theorem isClique_subset {G : Graph} {s t : Finset ℕ} (hts : t ⊆ s)
    (hs : isClique G s) : isClique G t :=
  ⟨hts.trans hs.1, fun u hu v hv huv => hs.2 u (hts hu) v (hts hv) huv⟩

/-- The unbounded construction produces exactly the nonempty cliques. -/
theorem simplices_ofSimplices_none (G : Graph) :
    (SimplicialComplex.ofSimplices (boundedCliques G none)).simplices = cliqueSet G := by
  ext t
  show t ∈ downClosure (enumerateAllCliques G) ↔ _
  rw [mem_downClosure, cliqueSet, Finset.mem_filter, Finset.mem_powerset]
  constructor
  · rintro ⟨hne, s, hs, hsub⟩
    have hcl := isClique_subset hsub (mem_enumerateAllCliques.mp hs).2
    exact ⟨hcl.1, hne, hcl⟩
  · rintro ⟨_, hne, hcl⟩
    exact ⟨hne, t, mem_enumerateAllCliques.mpr ⟨hne, hcl⟩, Finset.Subset.refl t⟩

/-- The bounded construction produces exactly the nonempty cliques of size at
most the bound. -/
theorem simplices_ofSimplices_some (G : Graph) (d : ℕ) :
    (SimplicialComplex.ofSimplices (boundedCliques G (some d))).simplices =
      boundedCliqueSet G d := by
  ext t
  show t ∈ downClosure (boundedCliques G (some d)) ↔ _
  rw [mem_downClosure, boundedCliqueSet, Finset.mem_filter, Finset.mem_powerset]
  constructor
  · rintro ⟨hne, s, hs, hsub⟩
    rcases mem_boundedCliques_some.mp hs with ⟨_, hcl, hcard⟩
    have htcl := isClique_subset hsub hcl
    exact ⟨htcl.1, hne, htcl, le_trans (Finset.card_le_card hsub) hcard⟩
  · rintro ⟨_, hne, hcl, hcard⟩
    exact ⟨hne, t, mem_boundedCliques_some.mpr ⟨hne, hcl, hcard⟩, Finset.Subset.refl t⟩

/-! ### Attribute copy lemmas -/

/-- Updating an attribute mapping does not change the simplex set. -/
theorem simplices_updateAt (sc : SimplicialComplex) (s : Finset ℕ) (a : Attr) :
    (sc.updateAt s a).simplices = sc.simplices := rfl

/-- Updating an attribute mapping does not change the complex attribute. -/
theorem complexAttr_updateAt (sc : SimplicialComplex) (s : Finset ℕ) (a : Attr) :
    (sc.updateAt s a).complexAttr = sc.complexAttr := rfl

/-- A successful copy phase changes neither the simplex set nor the complex
attribute. -/
theorem copyAttrs_ok {L : List (Finset ℕ × Attr)} {sc sc' : SimplicialComplex}
    (h : copyAttrs L sc = .ok sc') :
    sc'.simplices = sc.simplices ∧ sc'.complexAttr = sc.complexAttr := by
  induction L generalizing sc sc' with
  | nil =>
    cases h
    exact ⟨rfl, rfl⟩
  | cons p rest ih =>
    rw [copyAttrs] at h
    by_cases hp : p.1 ∈ sc.simplices
    · rw [if_pos hp] at h
      have hih := ih h
      rwa [simplices_updateAt, complexAttr_updateAt] at hih
    · rw [if_neg hp] at h
      cases h

/-- The copy phase succeeds exactly when every target simplex is present. -/
theorem copyAttrs_isOk_iff {L : List (Finset ℕ × Attr)} {sc : SimplicialComplex} :
    (∃ sc', copyAttrs L sc = .ok sc') ↔ ∀ p ∈ L, p.1 ∈ sc.simplices := by
  induction L generalizing sc with
  | nil =>
    constructor
    · intro _ p hp
      cases hp
    · intro _
      exact ⟨sc, rfl⟩
  | cons q rest ih =>
    constructor
    · rintro ⟨sc', h⟩
      rw [copyAttrs] at h
      by_cases hq : q.1 ∈ sc.simplices
      · rw [if_pos hq] at h
        intro p hp
        rcases List.mem_cons.mp hp with rfl | hrest
        · exact hq
        · have := ih.mp ⟨sc', h⟩ p hrest
          rwa [simplices_updateAt] at this
      · rw [if_neg hq] at h
        cases h
    · intro hall
      have hq : q.1 ∈ sc.simplices := hall q (List.mem_cons_self q rest)
      have hrest : ∀ p ∈ rest, p.1 ∈ (sc.updateAt q.1 q.2).simplices := by
        intro p hp
        rw [simplices_updateAt]
        exact hall p (List.mem_cons_of_mem q hp)
      rcases ih.mpr hrest with ⟨sc', h⟩
      refine ⟨sc', ?_⟩
      rw [copyAttrs, if_pos hq]
      rw [← h]

/-! ### Clique complex builder lemmas -/

/-- Success characterization of `Except.map`. -/
theorem exceptMap_ok {f : SimplicialComplex → SimplicialComplex}
    {e : Except Err SimplicialComplex} {b : SimplicialComplex} :
    e.map f = .ok b ↔ ∃ a, e = .ok a ∧ f a = b := by
  cases e with
  | error err => simp [Except.map]
  | ok a => simp [Except.map]

/-- Adjacency is symmetric. -/
theorem adjB_symm (G : Graph) (u v : ℕ) : adjB G u v = adjB G v u := by
  unfold adjB
  rw [Bool.or_comm]

/-- Every single node is a clique. -/
theorem singleton_isClique {G : Graph} {v : ℕ} (hv : v ∈ G.nodes) :
    isClique G {v} := by
  refine ⟨Finset.singleton_subset_iff.mpr hv, ?_⟩
  intro u hu w hw huw
  rw [Finset.mem_singleton] at hu hw
  exact absurd (hu.trans hw.symm) huw

/-- Every edge endpoint pair is a clique. -/
theorem edge_isClique {G : Graph} {e : ℕ × ℕ} (he : e ∈ G.edges) :
    isClique G {e.1, e.2} := by
  rcases G.edges_mem e he with ⟨h1, h2⟩
  have hadj : adjB G e.1 e.2 = true := by
    unfold adjB
    rw [decide_eq_true he]
    rfl
  refine ⟨Finset.insert_subset_iff.mpr ⟨h1, Finset.singleton_subset_iff.mpr h2⟩, ?_⟩
  intro u hu w hw huw
  rw [Finset.mem_insert, Finset.mem_singleton] at hu hw
  rcases hu with rfl | rfl <;> rcases hw with rfl | rfl
  · exact absurd rfl huw
  · exact hadj
  · rw [adjB_symm]
    exact hadj
  · exact absurd rfl huw

/-- Membership in the nonempty-clique set. -/
theorem mem_cliqueSet {G : Graph} {s : Finset ℕ} :
    s ∈ cliqueSet G ↔ s.Nonempty ∧ isClique G s := by
  rw [cliqueSet, Finset.mem_filter, Finset.mem_powerset]
  exact ⟨fun h => h.2, fun h => ⟨h.2.1, h⟩⟩

/-- Membership in the bounded nonempty-clique set. -/
theorem mem_boundedCliqueSet {G : Graph} {d : ℕ} {s : Finset ℕ} :
    s ∈ boundedCliqueSet G d ↔ s.Nonempty ∧ isClique G s ∧ s.card ≤ d := by
  rw [boundedCliqueSet, Finset.mem_filter, Finset.mem_powerset]
  exact ⟨fun h => h.2, fun h => ⟨h.2.1.1, h⟩⟩

/-- A successful clique-complex build carries the simplices of the
construction phase. -/
theorem gtcc_ok_simplices {G : Graph} {md : Option ℕ} {SC : SimplicialComplex}
    (h : graph_to_clique_complex G md = .ok SC) :
    SC.simplices = (SimplicialComplex.ofSimplices (boundedCliques G md)).simplices := by
  unfold graph_to_clique_complex at h
  rcases exceptMap_ok.mp h with ⟨sc1, hcp, hfin⟩
  have hs := (copyAttrs_ok hcp).1
  rw [← hfin]
  exact hs

/-- A successful unbounded build has exactly the nonempty cliques as
simplices. -/
theorem gtcc_none_simplices {G : Graph} {SC : SimplicialComplex}
    (h : graph_to_clique_complex G none = .ok SC) :
    SC.simplices = cliqueSet G := by
  rw [gtcc_ok_simplices h, simplices_ofSimplices_none]

/-- A successful bounded build has exactly the nonempty cliques of size at
most the bound as simplices. -/
theorem gtcc_some_simplices {G : Graph} {d : ℕ} {SC : SimplicialComplex}
    (h : graph_to_clique_complex G (some d) = .ok SC) :
    SC.simplices = boundedCliqueSet G d := by
  rw [gtcc_ok_simplices h, simplices_ofSimplices_some]

/-- The unbounded clique-complex build always succeeds: no node or edge
simplex has been pruned, so the attribute copy phase finds all of them. -/
theorem gtcc_none_ok (G : Graph) :
    ∃ SC, graph_to_clique_complex G none = .ok SC := by
  unfold graph_to_clique_complex
  have hcp : ∃ sc', copyAttrs (nodeTargets G ++ edgeTargets G)
      (SimplicialComplex.ofSimplices (boundedCliques G none)) = .ok sc' := by
    rw [copyAttrs_isOk_iff]
    intro p hp
    rw [simplices_ofSimplices_none]
    rcases List.mem_append.mp hp with hn | he
    · rcases List.mem_map.mp hn with ⟨v, hv, rfl⟩
      exact mem_cliqueSet.mpr
        ⟨Finset.singleton_nonempty v, singleton_isClique (mem_nodeList.mp hv)⟩
    · rcases List.mem_map.mp he with ⟨e, heL, rfl⟩
      exact mem_cliqueSet.mpr
        ⟨Finset.insert_nonempty _ _, edge_isClique (mem_edgeList.mp heL)⟩
  rcases hcp with ⟨sc', h⟩
  exact ⟨_, by rw [h]; rfl⟩

/-- The bounded clique-complex build succeeds exactly when no node simplex is
pruned (no node, or bound at least 1) and no edge simplex is pruned (no edge,
or bound at least 2). -/
theorem gtcc_some_ok_iff (G : Graph) (d : ℕ) :
    (∃ SC, graph_to_clique_complex G (some d) = .ok SC) ↔
      ((G.nodes = ∅ ∨ 1 ≤ d) ∧ (G.edges = ∅ ∨ 2 ≤ d)) := by
  constructor
  · rintro ⟨SC, h⟩
    unfold graph_to_clique_complex at h
    rcases exceptMap_ok.mp h with ⟨sc1, hcp, _⟩
    have hall := copyAttrs_isOk_iff.mp ⟨sc1, hcp⟩
    constructor
    · rcases Finset.eq_empty_or_nonempty G.nodes with hemp | ⟨v, hv⟩
      · exact Or.inl hemp
      · right
        have hv' := hall ({v}, G.nodeAttr v)
          (List.mem_append_left _ (List.mem_map.mpr ⟨v, mem_nodeList.mpr hv, rfl⟩))
        rw [simplices_ofSimplices_some] at hv'
        rcases mem_boundedCliqueSet.mp hv' with ⟨-, -, hcard⟩
        rw [Finset.card_singleton] at hcard
        exact hcard
    · rcases Finset.eq_empty_or_nonempty G.edges with hemp | ⟨e, he⟩
      · exact Or.inl hemp
      · right
        have hne : e.1 ≠ e.2 := ne_of_lt (G.edges_lt e he)
        have he' := hall ({e.1, e.2}, G.edgeAttr e)
          (List.mem_append_right _ (List.mem_map.mpr ⟨e, mem_edgeList.mpr he, rfl⟩))
        rw [simplices_ofSimplices_some] at he'
        rcases mem_boundedCliqueSet.mp he' with ⟨-, -, hcard⟩
        rw [Finset.card_pair hne] at hcard
        exact hcard
  · rintro ⟨hnode, hedge⟩
    have hcp : ∃ sc', copyAttrs (nodeTargets G ++ edgeTargets G)
        (SimplicialComplex.ofSimplices (boundedCliques G (some d))) = .ok sc' := by
      rw [copyAttrs_isOk_iff]
      intro p hp
      rw [simplices_ofSimplices_some]
      rcases List.mem_append.mp hp with hn | he
      · rcases List.mem_map.mp hn with ⟨v, hv, rfl⟩
        have hvn := mem_nodeList.mp hv
        have hd : 1 ≤ d := by
          rcases hnode with hemp | hle
          · rw [hemp] at hvn
            cases hvn
          · exact hle
        refine mem_boundedCliqueSet.mpr
          ⟨Finset.singleton_nonempty v, singleton_isClique hvn, ?_⟩
        rw [Finset.card_singleton]
        exact hd
      · rcases List.mem_map.mp he with ⟨e, heL, rfl⟩
        have heE := mem_edgeList.mp heL
        have hd : 2 ≤ d := by
          rcases hedge with hemp | hle
          · rw [hemp] at heE
            cases heE
          · exact hle
        refine mem_boundedCliqueSet.mpr
          ⟨Finset.insert_nonempty _ _, edge_isClique heE, ?_⟩
        rw [Finset.card_pair (ne_of_lt (G.edges_lt e heE))]
        exact hd
    rcases hcp with ⟨sc', h⟩
    refine ⟨{ sc' with complexAttr := updateAttr sc'.complexAttr G.graphAttr }, ?_⟩
    unfold graph_to_clique_complex
    rw [h]
    rfl

/-! ### Dimension lemmas -/

/-- Monotonicity of dimension in the simplex set. -/
theorem dim_mono {sc1 sc2 : SimplicialComplex}
    (h : sc1.simplices ⊆ sc2.simplices) : sc1.dim ≤ sc2.dim := by
  unfold SimplicialComplex.dim
  have := Finset.sup_mono (f := Finset.card) h
  omega

/-- The largest nonempty clique is as large as the largest clique. -/
theorem sup_card_cliqueSet (G : Graph) :
    (cliqueSet G).sup Finset.card = maxCliqueSize G := by
  apply le_antisymm
  · apply Finset.sup_le
    intro s hs
    rcases mem_cliqueSet.mp hs with ⟨_, hcl⟩
    exact Finset.le_sup (Finset.mem_filter.mpr ⟨Finset.mem_powerset.mpr hcl.1, hcl⟩)
  · apply Finset.sup_le
    intro s hs
    rcases Finset.mem_filter.mp hs with ⟨-, hcl⟩
    rcases Finset.eq_empty_or_nonempty s with rfl | hne
    · exact Nat.zero_le _
    · exact Finset.le_sup (mem_cliqueSet.mpr ⟨hne, hcl⟩)

/-- A node is not its own neighbor (the graph is loopless). -/
theorem adjB_self (G : Graph) (v : ℕ) : adjB G v v = false := by
  unfold adjB
  rw [Bool.or_self, decide_eq_false]
  intro hmem
  exact lt_irrefl v (G.edges_lt _ hmem)

/-- A node is not a member of its own neighbor set. -/
theorem notMem_neighbors (G : Graph) (v : ℕ) : v ∉ neighbors G v := by
  intro h
  have h2 := (Finset.mem_filter.mp h).2
  rw [adjB_self] at h2
  cases h2

/-- The neighbor simplex of a node has one more element than its degree. -/
theorem card_neighborSimplex (G : Graph) (v : ℕ) :
    (neighborSimplex G v).card = degree G v + 1 :=
  Finset.card_insert_of_not_mem (notMem_neighbors G v)

/-! ### Distance and power lemmas -/

/-- Walks survive relaxing the length bound by one. -/
theorem distLE_succ (G : Graph) :
    ∀ (k : ℕ) (u v : ℕ), distLE G u v k = true → distLE G u v (k + 1) = true := by
  intro k
  induction k with
  | zero =>
    intro u v h
    rw [distLE] at h
    rw [distLE, Bool.or_eq_true]
    exact Or.inl h
  | succ k ih =>
    intro u v h
    rw [distLE, Bool.or_eq_true] at h
    rw [distLE, Bool.or_eq_true]
    rcases h with h | h
    · exact Or.inl h
    · right
      rw [List.any_eq_true] at h
      rw [List.any_eq_true]
      rcases h with ⟨w, hw, hwp⟩
      rw [Bool.and_eq_true] at hwp
      exact ⟨w, hw, by rw [Bool.and_eq_true]; exact ⟨hwp.1, ih w v hwp.2⟩⟩

/-- Walks survive relaxing the length bound. -/
theorem distLE_mono (G : Graph) (u v : ℕ) {k k' : ℕ} (hkk : k ≤ k')
    (h : distLE G u v k = true) : distLE G u v k' = true := by
  rcases Nat.exists_eq_add_of_le hkk with ⟨m, rfl⟩
  clear hkk
  induction m with
  | zero => exact h
  | succ m ih => exact distLE_succ G (k + m) u v ih

/-- A least-witness result is a distance bound. -/
theorem distUpTo_some {G : Graph} {u v : ℕ} :
    ∀ {k d : ℕ}, distUpTo G u v k = some d → distLE G u v d = true ∧ d ≤ k := by
  intro k
  induction k with
  | zero =>
    intro d h
    rw [distUpTo] at h
    by_cases h0 : distLE G u v 0 = true
    · rw [if_pos h0] at h
      cases h
      exact ⟨h0, le_refl 0⟩
    · rw [if_neg h0] at h
      cases h
  | succ k ih =>
    intro d h
    rw [distUpTo] at h
    cases hk : distUpTo G u v k with
    | some e =>
      rw [hk] at h
      cases h
      rcases ih hk with ⟨h1, h2⟩
      exact ⟨h1, le_trans h2 (Nat.le_succ k)⟩
    | none =>
      rw [hk] at h
      by_cases hd : distLE G u v (k + 1) = true
      · rw [if_pos hd] at h
        cases h
        exact ⟨hd, le_refl _⟩
      · rw [if_neg hd] at h
        cases h

/-- The least-witness search succeeds when a walk exists within the bound. -/
theorem distUpTo_isSome {G : Graph} {u v : ℕ} :
    ∀ {k : ℕ}, distLE G u v k = true → ∃ d, distUpTo G u v k = some d := by
  intro k
  induction k with
  | zero =>
    intro h
    exact ⟨0, by rw [distUpTo, if_pos h]⟩
  | succ k ih =>
    intro h
    rw [distUpTo]
    cases hk : distUpTo G u v k with
    | some d => exact ⟨d, rfl⟩
    | none => exact ⟨k + 1, by rw [if_pos h]⟩

/-- On a connected graph the computed distance is a walk-length bound. -/
theorem distLE_distN {G : Graph} (hc : Connected G) {u v : ℕ}
    (hu : u ∈ G.nodes) (hv : v ∈ G.nodes) :
    distLE G u v (distN G u v) = true := by
  rcases distUpTo_isSome (hc u hu v hv) with ⟨d, hd⟩
  rw [distN, hd, Option.getD_some]
  exact (distUpTo_some hd).1

/-- On a connected graph every pair is within the diameter. -/
theorem distLE_diameter {G : Graph} (hc : Connected G) {u v : ℕ}
    (hu : u ∈ G.nodes) (hv : v ∈ G.nodes) :
    distLE G u v (diameter G) = true := by
  refine distLE_mono G u v ?_ (distLE_distN hc hu hv)
  exact Finset.le_sup (f := fun p => distN G p.1 p.2) (b := (u, v))
    (Finset.mem_product.mpr ⟨hu, hv⟩)

/-- Plain extensionality for graphs (the adjacency well-formedness proofs are
irrelevant). -/
theorem Graph.eq_of_fields {G1 G2 : Graph} (hn : G1.nodes = G2.nodes)
    (he : G1.edges = G2.edges) (h3 : G1.nodeAttr = G2.nodeAttr)
    (h4 : G1.edgeAttr = G2.edgeAttr) (h5 : G1.graphAttr = G2.graphAttr) :
    G1 = G2 := by
  cases G1
  cases G2
  dsimp at hn he h3 h4 h5
  subst hn
  subst he
  subst h3
  subst h4
  subst h5
  rfl

/-- At or beyond the diameter of a connected graph, the graph power is the
complete graph on the node set. -/
theorem graphPower_edges_of {G : Graph} (hc : Connected G) {k : ℕ}
    (hk : diameter G ≤ k) :
    (graphPower G k).edges = (G.nodes ×ˢ G.nodes).filter (fun p => p.1 < p.2) := by
  show (G.nodes ×ˢ G.nodes).filter (fun p => p.1 < p.2 ∧ distLE G p.1 p.2 k = true) = _
  ext p
  rw [Finset.mem_filter, Finset.mem_filter]
  constructor
  · rintro ⟨hmem, hlt, -⟩
    exact ⟨hmem, hlt⟩
  · rintro ⟨hmem, hlt⟩
    rcases Finset.mem_product.mp hmem with ⟨h1, h2⟩
    exact ⟨hmem, hlt, distLE_mono G p.1 p.2 hk (distLE_diameter hc h1 h2)⟩

/-- Beyond the diameter of a connected graph all graph powers coincide. -/
theorem graphPower_eq {G : Graph} (hc : Connected G) {k k' : ℕ}
    (hk : diameter G ≤ k) (hk' : diameter G ≤ k') :
    graphPower G k = graphPower G k' :=
  Graph.eq_of_fields rfl
    ((graphPower_edges_of hc hk).trans (graphPower_edges_of hc hk').symm) rfl rfl rfl

/-- Power-graph adjacency is monotone in the power. -/
theorem adjB_graphPower_mono (G : Graph) {k k' : ℕ} (hkk : k ≤ k') {u v : ℕ}
    (h : adjB (graphPower G k) u v = true) : adjB (graphPower G k') u v = true := by
  unfold adjB at h ⊢
  rw [Bool.or_eq_true, decide_eq_true_eq, decide_eq_true_eq] at h
  rw [Bool.or_eq_true, decide_eq_true_eq, decide_eq_true_eq]
  have step : ∀ a b : ℕ, (a, b) ∈ (graphPower G k).edges → (a, b) ∈ (graphPower G k').edges := by
    intro a b hab
    have hab' : (a, b) ∈ (G.nodes ×ˢ G.nodes).filter
        (fun p => p.1 < p.2 ∧ distLE G p.1 p.2 k = true) := hab
    rcases Finset.mem_filter.mp hab' with ⟨hmem, hlt, hd⟩
    show (a, b) ∈ (G.nodes ×ˢ G.nodes).filter
      (fun p => p.1 < p.2 ∧ distLE G p.1 p.2 k' = true)
    exact Finset.mem_filter.mpr ⟨hmem, hlt, distLE_mono G a b hkk hd⟩
  rcases h with h | h
  · exact Or.inl (step u v h)
  · exact Or.inr (step v u h)

/-- The clique set of a graph power is monotone in the power. -/
theorem cliqueSet_graphPower_mono (G : Graph) {k k' : ℕ} (hkk : k ≤ k') :
    cliqueSet (graphPower G k) ⊆ cliqueSet (graphPower G k') := by
  intro s hs
  rcases mem_cliqueSet.mp hs with ⟨hne, hsub, hpair⟩
  refine mem_cliqueSet.mpr ⟨hne, hsub, ?_⟩
  intro u hu v hv huv
  exact adjB_graphPower_mono G hkk (hpair u hu v hv huv)

/-- With a valid power the builder is the clique complex of the power
graph. -/
theorem gtpc_pos (G : Graph) {pow : ℤ} (h : 1 ≤ pow) (md : Option ℕ) :
    graph_to_power_complex G pow md =
      graph_to_clique_complex (graphPower G pow.toNat) md := by
  unfold graph_to_power_complex
  rw [if_neg (by omega : ¬ pow < 1)]

/-! ### Attribute emptiness lemmas -/

/-- Merging an empty mapping changes nothing. -/
theorem updateAttr_nil (a : Attr) : updateAttr a [] = a := rfl

/-- When every stored attribute mapping is empty, lookups are empty. -/
theorem getAttr_of_allNil {sc : SimplicialComplex}
    (h : ∀ q ∈ sc.attrs, q.2 = ([] : Attr)) (s : Finset ℕ) :
    sc.getAttr s = [] := by
  unfold SimplicialComplex.getAttr
  cases hf : sc.attrs.find? (fun p => decide (p.1 = s)) with
  | none => rfl
  | some q =>
    have hq := List.mem_of_find?_eq_some hf
    rw [Option.map_some', Option.getD_some]
    exact h q hq

/-- Storing an empty mapping keeps every stored mapping empty. -/
theorem setEntry_allNil {l : List (Finset ℕ × Attr)} {s : Finset ℕ} {v : Attr}
    (hl : ∀ q ∈ l, q.2 = ([] : Attr)) (hv : v = []) :
    ∀ q ∈ setEntry l s v, q.2 = ([] : Attr) := by
  intro q hq
  unfold setEntry at hq
  by_cases hany : l.any (fun p => decide (p.1 = s)) = true
  · rw [if_pos hany] at hq
    rcases List.mem_map.mp hq with ⟨p, hp, rfl⟩
    by_cases hps : p.1 = s
    · rw [if_pos hps]
      exact hv
    · rw [if_neg hps]
      exact hl p hp
  · rw [if_neg hany] at hq
    rcases List.mem_append.mp hq with hmem | hmem
    · exact hl q hmem
    · rw [List.mem_singleton] at hmem
      rw [hmem]
      exact hv

/-- A copy phase whose targets all carry empty mappings keeps every stored
mapping empty. -/
theorem copyAttrs_allNil {L : List (Finset ℕ × Attr)} {sc sc' : SimplicialComplex}
    (hsc : ∀ q ∈ sc.attrs, q.2 = ([] : Attr))
    (hL : ∀ p ∈ L, p.2 = ([] : Attr))
    (h : copyAttrs L sc = .ok sc') :
    ∀ q ∈ sc'.attrs, q.2 = ([] : Attr) := by
  induction L generalizing sc sc' with
  | nil =>
    cases h
    exact hsc
  | cons p rest ih =>
    rw [copyAttrs] at h
    by_cases hp : p.1 ∈ sc.simplices
    · rw [if_pos hp] at h
      refine ih ?_ (fun q hq => hL q (List.mem_cons_of_mem p hq)) h
      show ∀ q ∈ setEntry sc.attrs p.1 (updateAttr (sc.getAttr p.1) p.2), q.2 = ([] : Attr)
      refine setEntry_allNil hsc ?_
      rw [hL p (List.mem_cons_self p rest), updateAttr_nil]
      exact getAttr_of_allNil hsc p.1
    · rw [if_neg hp] at h
      cases h

/-! ### Neighbor complex lemmas -/

/-- The largest simplex of the neighbor complex is the largest closed
neighborhood. -/
theorem sup_neighborComplex (G : Graph) (h : G.nodes.Nonempty) :
    (graph_to_neighbor_complex G).simplices.sup Finset.card = maxDegree G + 1 := by
  apply le_antisymm
  · apply Finset.sup_le
    intro t ht
    have ht' : t ∈ downClosure (neighborSimplices G) := ht
    rcases mem_downClosure.mp ht' with ⟨-, s, hsL, hts⟩
    rcases List.mem_map.mp hsL with ⟨v, hv, rfl⟩
    calc t.card ≤ (neighborSimplex G v).card := Finset.card_le_card hts
    _ = degree G v + 1 := card_neighborSimplex G v
    _ ≤ maxDegree G + 1 := Nat.succ_le_succ (Finset.le_sup (mem_nodeList.mp hv))
  · rcases Finset.exists_mem_eq_sup G.nodes h (degree G) with ⟨v, hv, hveq⟩
    have hmem : neighborSimplex G v ∈ (graph_to_neighbor_complex G).simplices := by
      show _ ∈ downClosure (neighborSimplices G)
      exact mem_downClosure.mpr ⟨⟨v, Finset.mem_insert_self v _⟩,
        neighborSimplex G v, List.mem_map.mpr ⟨v, mem_nodeList.mpr hv, rfl⟩,
        Finset.Subset.refl _⟩
    have hle := Finset.le_sup (f := Finset.card) hmem
    rw [card_neighborSimplex] at hle
    rw [maxDegree, hveq]
    exact hle

/-! ### Claims -/

/-- Claim C1, counterexample: on the triangle graph with `max_dim = 2`, the
set `{0, 1, 2}` is a clique of size `2 + 1`, the build succeeds, and yet that
clique is not a simplex of the result — the `takewhile` cut discards cliques
of size exceeding `max_dim`, not `max_dim + 1`. -/
theorem claim_C1_counterexample :
    isClique Gtri {0, 1, 2} ∧ ({0, 1, 2} : Finset ℕ).card = 2 + 1 ∧
    graph_to_clique_complex Gtri (some 2) =
      .ok (okValue (graph_to_clique_complex Gtri (some 2))) ∧
    ({0, 1, 2} : Finset ℕ) ∉
      (okValue (graph_to_clique_complex Gtri (some 2))).simplices := by
  decide

/-- Claim C1, amended: when `graph_to_clique_complex G max_dim` returns a
complex, its simplex set is exactly the set of all nonempty cliques of `G` of
size at most `max_dim` (so a clique of size `max_dim + 1`, of dimension
`max_dim`, is discarded). -/
theorem claim_C1 :
    ∀ (G : Graph) (d : ℕ) (SC : SimplicialComplex),
      graph_to_clique_complex G (some d) = .ok SC →
      SC.simplices = boundedCliqueSet G d :=
  fun _G _d _SC h => gtcc_some_simplices h

/-- Claim C1, witness: the amended claim evaluated on the triangle graph with
bound `2`. -/
theorem claim_C1_witness :
    (okValue (graph_to_clique_complex Gtri (some 2))).simplices =
      boundedCliqueSet Gtri 2 :=
  claim_C1 Gtri 2 (okValue (graph_to_clique_complex Gtri (some 2))) (by decide)

/-- Claim C2, counterexample: on the single-edge graph with `max_dim = 1` the
edge simplex `{0, 1}` is pruned from the constructed complex, and the call
does not return normally — the attribute copy phase raises `KeyError`. -/
theorem claim_C2_counterexample :
    (0, 1) ∈ Gedge.edges ∧
    ({0, 1} : Finset ℕ) ∉
      (SimplicialComplex.ofSimplices (boundedCliques Gedge (some 1))).simplices ∧
    graph_to_clique_complex Gedge (some 1) = .error .keyError := by
  decide

/-- Claim C2, amended: the attribute copy phase performs no membership check,
so `graph_to_clique_complex G (some d)` returns normally exactly when no node
simplex was pruned (`G` has no node, or `d ≥ 1`) and no edge simplex was
pruned (`G` has no edge, or `d ≥ 2`); in every other case it raises instead
of silently skipping. -/
theorem claim_C2 :
    ∀ (G : Graph) (d : ℕ),
      (∃ SC, graph_to_clique_complex G (some d) = .ok SC) ↔
        ((G.nodes = ∅ ∨ 1 ≤ d) ∧ (G.edges = ∅ ∨ 2 ≤ d)) :=
  gtcc_some_ok_iff

/-- Claim C3, counterexample: node `0` of the single-edge graph carries
`label = 5`, the independent-set build succeeds and contains the simplex
`{0}`, yet the attribute mapping stored for `{0}` is empty — node attributes
do not survive the complement step. -/
theorem claim_C3_counterexample :
    Gattr.nodeAttr 0 = [("label", 5)] ∧
    graph_to_independent_set_complex Gattr none =
      .ok (okValue (graph_to_independent_set_complex Gattr none)) ∧
    ({0} : Finset ℕ) ∈
      (okValue (graph_to_independent_set_complex Gattr none)).simplices ∧
    (okValue (graph_to_independent_set_complex Gattr none)).getAttr {0} = [] ∧
    ([] : Attr) ≠ [("label", 5)] := by
  decide

/-- Claim C3, amended: `graph_to_independent_set_complex` copies no attribute
at all: the complement primitive propagates no node, edge or graph data, so
every per-simplex attribute mapping and the complex-level attribute mapping
of the result are empty. -/
theorem claim_C3 :
    ∀ (G : Graph) (md : Option ℕ) (SC : SimplicialComplex),
      graph_to_independent_set_complex G md = .ok SC →
      (∀ s, SC.getAttr s = []) ∧ SC.complexAttr = [] := by
  intro G md SC h
  unfold graph_to_independent_set_complex graph_to_clique_complex at h
  rcases exceptMap_ok.mp h with ⟨sc1, hcp, hfin⟩
  have hnil : ∀ q ∈ sc1.attrs, q.2 = ([] : Attr) := by
    refine copyAttrs_allNil ?_ ?_ hcp
    · intro q hq
      cases hq
    · intro p hp
      rcases List.mem_append.mp hp with hn | he
      · rcases List.mem_map.mp hn with ⟨v, hv, rfl⟩
        rfl
      · rcases List.mem_map.mp he with ⟨e, heL, rfl⟩
        rfl
  constructor
  · intro s
    rw [← hfin]
    exact getAttr_of_allNil hnil s
  · rw [← hfin]
    show updateAttr sc1.complexAttr (complement G).graphAttr = []
    have hc := (copyAttrs_ok hcp).2
    have hgaeq : updateAttr sc1.complexAttr (complement G).graphAttr =
        sc1.complexAttr := rfl
    rw [hgaeq, hc]
    rfl

/-- Claim C3, witness: the amended claim evaluated on the single-edge graph
with a node attribute, at the simplex `{0}`. -/
theorem claim_C3_witness :
    (okValue (graph_to_independent_set_complex Gattr none)).getAttr {0} = [] ∧
    (okValue (graph_to_independent_set_complex Gattr none)).complexAttr = [] :=
  ⟨(claim_C3 Gattr none (okValue (graph_to_independent_set_complex Gattr none))
      (by decide)).1 {0},
   (claim_C3 Gattr none (okValue (graph_to_independent_set_complex Gattr none))
      (by decide)).2⟩

/-- Claim C4: on a graph with at least one node, the unbounded clique-complex
build succeeds and the dimension of the result is the size of the largest
clique minus one. -/
theorem claim_C4 :
    ∀ (G : Graph), G.nodes.Nonempty →
      (graph_to_clique_complex G none).map SimplicialComplex.dim =
        .ok ((maxCliqueSize G : ℤ) - 1) := by
  intro G _h
  rcases gtcc_none_ok G with ⟨SC, hSC⟩
  rw [hSC]
  show Except.ok SC.dim = Except.ok ((maxCliqueSize G : ℤ) - 1)
  congr 1
  rw [SimplicialComplex.dim, gtcc_none_simplices hSC, sup_card_cliqueSet]

/-- Claim C4, witness: the triangle graph has largest clique size `3` and its
clique complex has dimension `2`. -/
theorem claim_C4_witness :
    (graph_to_clique_complex Gtri none).map SimplicialComplex.dim =
      .ok ((maxCliqueSize Gtri : ℤ) - 1) :=
  claim_C4 Gtri (by decide)

/-- Claim C5: when the bounded build returns a complex, its dimension is at
most the bound `d`, and each of its simplices is a simplex of the unbounded
build. -/
theorem claim_C5 :
    ∀ (G : Graph) (d : ℕ) (SC SCu : SimplicialComplex),
      graph_to_clique_complex G (some d) = .ok SC →
      graph_to_clique_complex G none = .ok SCu →
      SC.dim ≤ (d : ℤ) ∧ SC.simplices ⊆ SCu.simplices := by
  intro G d SC SCu hb hu
  have hs := gtcc_some_simplices hb
  have hsu := gtcc_none_simplices hu
  constructor
  · rw [SimplicialComplex.dim, hs]
    have hle : (boundedCliqueSet G d).sup Finset.card ≤ d := by
      apply Finset.sup_le
      intro s hsm
      exact (mem_boundedCliqueSet.mp hsm).2.2
    omega
  · rw [hs, hsu]
    intro s hsm
    rcases mem_boundedCliqueSet.mp hsm with ⟨hne, hcl, -⟩
    exact mem_cliqueSet.mpr ⟨hne, hcl⟩

/-- Claim C5, witness: the claim evaluated on the triangle graph with bound
`2`. -/
theorem claim_C5_witness :
    (okValue (graph_to_clique_complex Gtri (some 2))).dim ≤ (2 : ℤ) ∧
    (okValue (graph_to_clique_complex Gtri (some 2))).simplices ⊆
      (okValue (graph_to_clique_complex Gtri none)).simplices :=
  claim_C5 Gtri 2 (okValue (graph_to_clique_complex Gtri (some 2)))
    (okValue (graph_to_clique_complex Gtri none)) (by decide) (by decide)

/-- Claim C6: `graph_to_power_complex` raises `ValueError` for every power
below `1` (returning no complex at all), and for every power at least `1` the
validation raises nothing — the call is exactly the clique complex of the
power graph. -/
theorem claim_C6 :
    ∀ (G : Graph) (pow : ℤ) (md : Option ℕ),
      (pow < 1 → graph_to_power_complex G pow md = .error .valueError) ∧
      (1 ≤ pow → graph_to_power_complex G pow md =
        graph_to_clique_complex (graphPower G pow.toNat) md) := by
  intro G pow md
  constructor
  · intro h
    unfold graph_to_power_complex
    rw [if_pos h]
  · intro h
    exact gtpc_pos G h md

/-- Claim C6, witness: the validation evaluated at powers `0`, `-1` and `1`
on the triangle graph. -/
theorem claim_C6_witness :
    graph_to_power_complex Gtri 0 none = .error .valueError ∧
    graph_to_power_complex Gtri (-1) none = .error .valueError ∧
    graph_to_power_complex Gtri 1 none =
      graph_to_clique_complex (graphPower Gtri (1 : ℤ).toNat) none :=
  ⟨(claim_C6 Gtri 0 none).1 (by decide),
   (claim_C6 Gtri (-1) none).1 (by decide),
   (claim_C6 Gtri 1 none).2 (by decide)⟩

/-- Claim C7: with no bound, the dimension of the power complex is
non-decreasing in the power, and on a connected graph the simplex set is
unchanged from the diameter onwards. -/
theorem claim_C7 :
    ∀ (G : Graph) (k k' : ℕ) (SC SC' : SimplicialComplex),
      1 ≤ k → k ≤ k' →
      graph_to_power_complex G (k : ℤ) none = .ok SC →
      graph_to_power_complex G (k' : ℤ) none = .ok SC' →
      SC.dim ≤ SC'.dim ∧
        (Connected G → diameter G ≤ k → SC.simplices = SC'.simplices) := by
  intro G k k' SC SC' hk hkk hb hb'
  have h1 : (1 : ℤ) ≤ (k : ℤ) := by exact_mod_cast hk
  have h1' : (1 : ℤ) ≤ (k' : ℤ) := by exact_mod_cast le_trans hk hkk
  rw [gtpc_pos G h1 none, Int.toNat_natCast] at hb
  rw [gtpc_pos G h1' none, Int.toNat_natCast] at hb'
  have hsimp := gtcc_none_simplices hb
  have hsimp' := gtcc_none_simplices hb'
  constructor
  · apply dim_mono
    rw [hsimp, hsimp']
    exact cliqueSet_graphPower_mono G hkk
  · intro hc hdk
    rw [hsimp, hsimp']
    rw [graphPower_eq hc hdk (le_trans hdk hkk)]

/-- Claim C7, witness: the claim evaluated on the triangle graph (diameter
`1`) at powers `1` and `2`. -/
theorem claim_C7_witness :
    (okValue (graph_to_power_complex Gtri ((1 : ℕ) : ℤ) none)).dim ≤
      (okValue (graph_to_power_complex Gtri ((2 : ℕ) : ℤ) none)).dim ∧
    (okValue (graph_to_power_complex Gtri ((1 : ℕ) : ℤ) none)).simplices =
      (okValue (graph_to_power_complex Gtri ((2 : ℕ) : ℤ) none)).simplices :=
  ⟨(claim_C7 Gtri 1 2 (okValue (graph_to_power_complex Gtri ((1 : ℕ) : ℤ) none))
      (okValue (graph_to_power_complex Gtri ((2 : ℕ) : ℤ) none))
      (by decide) (by decide) (by decide) (by decide)).1,
   (claim_C7 Gtri 1 2 (okValue (graph_to_power_complex Gtri ((1 : ℕ) : ℤ) none))
      (okValue (graph_to_power_complex Gtri ((2 : ℕ) : ℤ) none))
      (by decide) (by decide) (by decide) (by decide)).2 (by decide) (by decide)⟩

/-- Claim C8: the neighbor complex is built from exactly the batch holding
one simplex `{v} ∪ neighbors(v)` per node `v` (each such simplex being
present in the result), and on a graph with at least one node its dimension
is the maximum node degree. -/
theorem claim_C8 :
    ∀ (G : Graph),
      graph_to_neighbor_complex G =
          SimplicialComplex.ofSimplices ((nodeList G).map (neighborSimplex G)) ∧
        (∀ v ∈ G.nodes,
          neighborSimplex G v ∈ (graph_to_neighbor_complex G).simplices) ∧
        (G.nodes.Nonempty →
          (graph_to_neighbor_complex G).dim = (maxDegree G : ℤ)) := by
  intro G
  refine ⟨rfl, ?_, ?_⟩
  · intro v hv
    show _ ∈ downClosure (neighborSimplices G)
    exact mem_downClosure.mpr ⟨⟨v, Finset.mem_insert_self v _⟩,
      neighborSimplex G v, List.mem_map.mpr ⟨v, mem_nodeList.mpr hv, rfl⟩,
      Finset.Subset.refl _⟩
  · intro h
    rw [SimplicialComplex.dim, sup_neighborComplex G h]
    push_cast
    ring

/-- Claim C8, witness: the dimension statement evaluated on the square graph
(maximum degree `2`). -/
theorem claim_C8_witness :
    (graph_to_neighbor_complex Gsq).dim = (maxDegree Gsq : ℤ) :=
  (claim_C8 Gsq).2.2 (by decide)

/-- Claim C9: each deprecated shim returns exactly the complex of its
non-deprecated counterpart and emits, on every invocation, one deprecation
warning whose text contains the replacement function's name. -/
theorem claim_C9 :
    ∀ (G : Graph) (md : Option ℕ),
      (graph_2_neighbor_complex G).2 = graph_to_neighbor_complex G ∧
      (graph_2_clique_complex G md).2 = graph_to_clique_complex G md ∧
      (graph_2_neighbor_complex G).1 = [deprMsgNeighbor] ∧
      (graph_2_clique_complex G md).1 = [deprMsgClique] ∧
      (∃ s t, deprMsgNeighbor = s ++ "graph_to_neighbor_complex" ++ t) ∧
      (∃ s t, deprMsgClique = s ++ "graph_to_clique_complex" ++ t) := by
  intro G md
  refine ⟨rfl, rfl, rfl, rfl,
    ⟨"`graph_2_neighbor_complex` is deprecated and will be removed in a future version, use `",
      "` instead.", rfl⟩,
    ⟨"`graph_2_clique_complex` is deprecated and will be removed in a future version, use `",
      "` instead.", rfl⟩⟩

/-- Claim C10: every node of the graph, isolated or not, appears as a
singleton simplex of the neighbor complex. -/
theorem claim_C10 :
    ∀ (G : Graph) (v : ℕ), v ∈ G.nodes →
      ({v} : Finset ℕ) ∈ (graph_to_neighbor_complex G).simplices := by
  intro G v hv
  show _ ∈ downClosure (neighborSimplices G)
  refine mem_downClosure.mpr ⟨Finset.singleton_nonempty v, neighborSimplex G v,
    List.mem_map.mpr ⟨v, mem_nodeList.mpr hv, rfl⟩, ?_⟩
  exact Finset.singleton_subset_iff.mpr (Finset.mem_insert_self v _)

/-- Claim C10, witness: the isolated node `5` appears as the simplex `{5}` of
the neighbor complex. -/
theorem claim_C10_witness :
    ({5} : Finset ℕ) ∈ (graph_to_neighbor_complex Giso).simplices :=
  claim_C10 Giso 5 (by decide)
